import Mathlib

/-!
Verification of the connection-request monitoring loop of the HederaAfrica_AI
demos (function monitorIncomingRequests) and of the utility retryWithBackoff.

The loop is embedded shallowly: one iteration of the inner for-loop over the
filtered connection requests is processRequest, a whole batch is processBatch,
one iteration of the while-loop is pollStep, and a finite schedule of polls is
runPolls.  External effects (the SDK calls handleConnectionRequest and
sendMessage) are modelled by Boolean outcome schedules carried in the state and
consumed one entry per call; extractAccountFromOperatorId is an arbitrary
function parameter.  Every observable action of the loop is recorded in an
event trace.
-/

/-- A message returned by client.getMessages: the fields the loop reads.
operator_id models message.operator_id after the JS defaulting
(message.operator_id or the empty string); connection_id is absent or a
number, and the JS truthiness test treats 0 like absence. -/
structure Message where
  op : String
  sequence_number : Nat
  connection_id : Option Nat
  operator_id : String
deriving DecidableEq

/-- Observable actions of the monitoring loop, in program order. -/
inductive Event where
  | warnInvalidOperator (seq : Nat)
  | skipProcessed (seq : Nat)
  | invokeHandshake (seq : Nat)
  | handshakeSuccess (seq : Nat)
  | handshakeError (seq : Nat)
  | markProcessed (seq : Nat)
  | sendWelcome (seq : Nat)
  | welcomeError (seq : Nat)
  | fetchError
  | sleep (ms : Nat)
deriving DecidableEq

/-- The two mutable variables of monitorIncomingRequests:
let lastProcessedMessage = 0 and const processedRequestIds = new Set. -/
structure LoopState where
  lastProcessedMessage : Nat
  processedRequestIds : List Nat
deriving DecidableEq

/-- Loop state together with the outcome schedules of the two external calls:
the head of handshakeOutcomes is consumed by the next
client.handleConnectionRequest call (true = returns, false = throws), the
head of sendOutcomes by the next client.sendMessage call.  An exhausted
schedule means the call succeeds. -/
structure World where
  st : LoopState
  handshakeOutcomes : List Bool
  sendOutcomes : List Bool
deriving DecidableEq

/-- JS Set.add: adds the element if it is not already a member. -/
def addId (s : List Nat) (n : Nat) : List Nat :=
  if n ∈ s then s else n :: s

/-- The connection_created scan of a poll: messages.filter(op ===
connection_created).forEach(if (msg.connection_id)
processedRequestIds.add(msg.connection_id)).  The truthiness test is
false for an absent connection_id and for connection_id = 0. -/
def confirmationScan (s : List Nat) (msgs : List Message) : List Nat :=
  (msgs.filter (fun m => m.op == "connection_created")).foldl
    (fun acc m =>
      match m.connection_id with
      | some c => if c ≠ 0 then addId acc c else acc
      | none => acc) s

/-- The connection_request filter of a poll: op === connection_request and
sequence_number > lastProcessedMessage. -/
def requestFilter (lm : Nat) (msgs : List Message) : List Message :=
  msgs.filter (fun m => m.op == "connection_request" && decide (lm < m.sequence_number))

/-- One iteration of the for-loop over the filtered connection requests.
First lastProcessedMessage = max(lastProcessedMessage, sequence_number);
then the operator_id parse, the processedRequestIds check, the handshake
call and, on success, the add to processedRequestIds followed by the
welcome-message send. -/
def processRequest (extract : String → Option String) (w : World) (msg : Message) :
    World × List Event :=
  let lm := max w.st.lastProcessedMessage msg.sequence_number
  match extract msg.operator_id with
  | none =>
      ({ w with st := ⟨lm, w.st.processedRequestIds⟩ },
       [Event.warnInvalidOperator msg.sequence_number])
  | some _ =>
      if msg.sequence_number ∈ w.st.processedRequestIds then
        ({ w with st := ⟨lm, w.st.processedRequestIds⟩ },
         [Event.skipProcessed msg.sequence_number])
      else
        if w.handshakeOutcomes.headD true then
          { st := ⟨lm, addId w.st.processedRequestIds msg.sequence_number⟩,
            handshakeOutcomes := w.handshakeOutcomes.tail,
            sendOutcomes := w.sendOutcomes.tail }
          |> fun w' =>
          (w',
           [Event.invokeHandshake msg.sequence_number,
            Event.handshakeSuccess msg.sequence_number,
            Event.markProcessed msg.sequence_number,
            Event.sendWelcome msg.sequence_number]
             ++ (if w.sendOutcomes.headD true then []
                 else [Event.welcomeError msg.sequence_number]))
        else
          ({ st := ⟨lm, w.st.processedRequestIds⟩,
             handshakeOutcomes := w.handshakeOutcomes.tail,
             sendOutcomes := w.sendOutcomes },
           [Event.invokeHandshake msg.sequence_number,
            Event.handshakeError msg.sequence_number])

/-- The whole for-loop over a batch of filtered connection requests. -/
def processBatch (extract : String → Option String) (w : World) :
    List Message → World × List Event
  | [] => (w, [])
  | m :: rest =>
      let p := processRequest extract w m
      let q := processBatch extract p.1 rest
      (q.1, p.2 ++ q.2)

/-- One iteration of the while-loop.  none models client.getMessages
throwing (FeedUnavailable): the outer catch logs and falls through to the
2000 ms sleep with the state untouched.  some msgs is a successful fetch:
confirmation scan, watermark filter, batch, sleep. -/
def pollStep (extract : String → Option String) (w : World)
    (fetched : Option (List Message)) : World × List Event :=
  match fetched with
  | none => (w, [Event.fetchError, Event.sleep 2000])
  | some msgs =>
      let w1 : World :=
        { w with st := ⟨w.st.lastProcessedMessage, confirmationScan w.st.processedRequestIds msgs⟩ }
      let r := processBatch extract w1 (requestFilter w.st.lastProcessedMessage msgs)
      (r.1, r.2 ++ [Event.sleep 2000])

/-- A finite prefix of the infinite while-loop: one pollStep per scheduled
fetch result. -/
def runPolls (extract : String → Option String) (w : World) :
    List (Option (List Message)) → World × List Event
  | [] => (w, [])
  | f :: fs =>
      let p := pollStep extract w f
      let q := runPolls extract p.1 fs
      (q.1, p.2 ++ q.2)

/-- The state at loop entry: lastProcessedMessage = 0, empty
processedRequestIds, with the given outcome schedules. -/
def initialWorld (hs ss : List Bool) : World :=
  { st := ⟨0, []⟩, handshakeOutcomes := hs, sendOutcomes := ss }

/-- Number of occurrences of an event in a trace. -/
def countEvent (e : Event) (evs : List Event) : Nat :=
  (evs.filter (fun x => decide (x = e))).length

/-- The sequence numbers of the handshake invocations of a trace, in trace
order. -/
def invokedSeqs (evs : List Event) : List Nat :=
  evs.filterMap (fun e =>
    match e with
    | Event.invokeHandshake n => some n
    | _ => none)

/-- In the trace evs, every welcome-message send for request id n is
strictly preceded by the add of n to the processed set. -/
def markBeforeSend (n : Nat) (evs : List Event) : Prop :=
  ∀ l₁ l₂, evs = l₁ ++ Event.sendWelcome n :: l₂ → Event.markProcessed n ∈ l₁

/-- Maximum sequence number among the connection_request entries of a fetch
(0 if there are none). -/
def reqMaxSeq (msgs : List Message) : Nat :=
  ((msgs.filter (fun m => m.op == "connection_request")).map
    (fun m => m.sequence_number)).foldl max 0

/-- Maximum connection_request sequence number seen across a schedule of
fetches (failed fetches contribute nothing; 0 if none). -/
def seenReqMax (fetches : List (Option (List Message))) : Nat :=
  fetches.foldl
    (fun a f =>
      match f with
      | some msgs => max a (reqMaxSeq msgs)
      | none => a) 0

/-- An operator_id parser that accepts everything: used for concrete runs. -/
def someExtract : String → Option String := fun s => some s

/-- An operator_id parser that fails exactly on the empty string: used to
exercise the malformed-entry path on concrete runs. -/
def demoExtract : String → Option String :=
  fun s => if s = "" then none else some s

/-- Concrete connection_request entries used in concrete runs. -/
def reqMsg1 : Message := ⟨"connection_request", 1, none, "0.0.1001"⟩

def reqMsg2 : Message := ⟨"connection_request", 2, none, "0.0.1002"⟩

def reqMsg3 : Message := ⟨"connection_request", 3, none, "0.0.1003"⟩

def reqMsg5 : Message := ⟨"connection_request", 5, none, "0.0.1005"⟩

/-- A request entry with an unparseable (empty) operator_id. -/
def badMsg : Message := ⟨"connection_request", 4, none, ""⟩

/-- A connection_created confirmation whose connection_id is 0. -/
def confMsg0 : Message := ⟨"connection_created", 9, some 0, ""⟩

/-- A connection_created confirmation referencing request id 5. -/
def confMsg5 : Message := ⟨"connection_created", 2, some 5, ""⟩

/-- Result of retryWithBackoff: the returned value, the rethrown error of
the final attempt, or the unreachable-for-positive-maxRetries fallthrough
throw (new Error, Max retries exceeded). -/
inductive RetryOutcome (E T : Type) where
  | ok (v : T)
  | err (e : E)
  | exhausted
deriving DecidableEq

/-- The for-loop of retryWithBackoff, from attempt index i with
fuel = maxRetries - i iterations left.  outcomes i is what the i-th call
of fn does.  Returns the outcome, the number of fn calls made, and the
list of sleep delays in order. -/
def retryGo {E T : Type} (outcomes : Nat → Except E T) (maxRetries baseDelay : Nat) :
    Nat → Nat → RetryOutcome E T × Nat × List Nat
  | _, 0 => (RetryOutcome.exhausted, 0, [])
  | i, fuel + 1 =>
      match outcomes i with
      | Except.ok v => (RetryOutcome.ok v, 1, [])
      | Except.error e =>
          if i = maxRetries - 1 then (RetryOutcome.err e, 1, [])
          else
            let r := retryGo outcomes maxRetries baseDelay (i + 1) fuel
            (r.1, r.2.1 + 1, baseDelay * 2 ^ i :: r.2.2)

/-- retryWithBackoff from demo-helpers: the loop runs i = 0 .. maxRetries-1. -/
def retryWithBackoff {E T : Type} (outcomes : Nat → Except E T)
    (maxRetries baseDelay : Nat) : RetryOutcome E T × Nat × List Nat :=
  retryGo outcomes maxRetries baseDelay 0 maxRetries

/-- A concrete attempt schedule for retryWithBackoff: the first call throws,
every later call returns 42. -/
def demoOutcomes : Nat → Except String Nat :=
  fun n => if n = 0 then Except.error "boom" else Except.ok 42

/-! ### Trace-counting and set helper lemmas -/

theorem countEvent_nil (e : Event) : countEvent e [] = 0 := rfl

theorem countEvent_cons (e x : Event) (l : List Event) :
    countEvent e (x :: l) = (if x = e then 1 else 0) + countEvent e l := by
  by_cases h : x = e <;> simp [countEvent, List.filter_cons, h, Nat.add_comm]

theorem countEvent_append (e : Event) (a b : List Event) :
    countEvent e (a ++ b) = countEvent e a + countEvent e b := by
  simp [countEvent, List.filter_append]

theorem countEvent_eq_zero {e : Event} {l : List Event} :
    countEvent e l = 0 ↔ e ∉ l := by
  constructor
  · intro h hmem
    have : decide (e = e) = true := by simp
    have hf : e ∈ l.filter (fun x => decide (x = e)) := List.mem_filter.2 ⟨hmem, by simp⟩
    have : l.filter (fun x => decide (x = e)) ≠ [] := by
      intro hnil; rw [hnil] at hf; exact (List.not_mem_nil e) hf
    have hlen : (l.filter (fun x => decide (x = e))).length ≠ 0 := by
      simpa [List.length_eq_zero] using this
    exact hlen h
  · intro h
    have : l.filter (fun x => decide (x = e)) = [] := by
      apply List.filter_eq_nil.2
      intro a ha
      simp only [decide_eq_true_eq]
      intro hae
      exact h (hae ▸ ha)
    simp [countEvent, this]

theorem mem_addId {s : List Nat} {n x : Nat} : x ∈ addId s n ↔ x = n ∨ x ∈ s := by
  unfold addId
  by_cases h : n ∈ s
  · simp only [if_pos h]
    constructor
    · exact Or.inr
    · rintro (rfl | hx)
      · exact h
      · exact hx
  · simp [if_neg h]

theorem mem_foldl_pres {α : Type} (g : List Nat → α → List Nat)
    (hg : ∀ s a, ∀ x ∈ s, x ∈ g s a) :
    ∀ (l : List α) (s : List Nat), ∀ x ∈ s, x ∈ l.foldl g s := by
  intro l
  induction l with
  | nil => intro s x hx; simpa using hx
  | cons a l ih =>
      intro s x hx
      simp only [List.foldl_cons]
      exact ih (g s a) x (hg s a x hx)

theorem mem_foldl_of_elem {α : Type} (g : List Nat → α → List Nat)
    (hg : ∀ s a, ∀ x ∈ s, x ∈ g s a) (m : α) (n : Nat) (hadd : ∀ s, n ∈ g s m) :
    ∀ (l : List α) (s : List Nat), m ∈ l → n ∈ l.foldl g s := by
  intro l
  induction l with
  | nil => intro s hm; exact absurd hm (List.not_mem_nil m)
  | cons a l ih =>
      intro s hm
      simp only [List.foldl_cons]
      rcases List.mem_cons.1 hm with rfl | hm'
      · exact mem_foldl_pres g hg l (g s m) n (hadd s)
      · exact ih (g s a) hm'

theorem confStep_pres :
    ∀ (s : List Nat) (m : Message), ∀ x ∈ s,
      x ∈ (match m.connection_id with
           | some c => if c ≠ 0 then addId s c else s
           | none => s) := by
  intro s m x hx
  cases m.connection_id with
  | none => exact hx
  | some c =>
      by_cases hc : c ≠ 0
      · simpa [hc] using mem_addId.2 (Or.inr hx)
      · simpa [hc] using hx

theorem mem_confirmationScan_of_mem {s : List Nat} {x : Nat} (msgs : List Message)
    (h : x ∈ s) : x ∈ confirmationScan s msgs := by
  unfold confirmationScan
  exact mem_foldl_pres _ confStep_pres _ s x h

theorem mem_confirmationScan_of_conf {s : List Nat} {n : Nat} {msgs : List Message}
    (hn : n ≠ 0) (m : Message) (hm : m ∈ msgs) (hop : m.op = "connection_created")
    (hc : m.connection_id = some n) : n ∈ confirmationScan s msgs := by
  unfold confirmationScan
  apply mem_foldl_of_elem _ confStep_pres m n
  · intro s'
    rw [hc]
    simpa [hn] using mem_addId.2 (Or.inl rfl)
  · exact List.mem_filter.2 ⟨hm, by simp [hop]⟩

/-! ### Shape lemmas for processRequest -/

theorem processRequest_none (extract : String → Option String) (w : World) (m : Message)
    (h : extract m.operator_id = none) :
    processRequest extract w m
      = ({ w with st := ⟨max w.st.lastProcessedMessage m.sequence_number,
                         w.st.processedRequestIds⟩ },
         [Event.warnInvalidOperator m.sequence_number]) := by
  simp [processRequest, h]

theorem processRequest_skip (extract : String → Option String) (w : World) (m : Message)
    (a : String) (h : extract m.operator_id = some a)
    (hm : m.sequence_number ∈ w.st.processedRequestIds) :
    processRequest extract w m
      = ({ w with st := ⟨max w.st.lastProcessedMessage m.sequence_number,
                         w.st.processedRequestIds⟩ },
         [Event.skipProcessed m.sequence_number]) := by
  simp [processRequest, h, hm]

theorem processRequest_ok (extract : String → Option String) (w : World) (m : Message)
    (a : String) (h : extract m.operator_id = some a)
    (hm : m.sequence_number ∉ w.st.processedRequestIds)
    (hok : w.handshakeOutcomes.headD true = true) :
    processRequest extract w m
      = ({ st := ⟨max w.st.lastProcessedMessage m.sequence_number,
                  addId w.st.processedRequestIds m.sequence_number⟩,
           handshakeOutcomes := w.handshakeOutcomes.tail,
           sendOutcomes := w.sendOutcomes.tail },
         [Event.invokeHandshake m.sequence_number,
          Event.handshakeSuccess m.sequence_number,
          Event.markProcessed m.sequence_number,
          Event.sendWelcome m.sequence_number]
           ++ (if w.sendOutcomes.headD true then []
               else [Event.welcomeError m.sequence_number])) := by
  rcases hl : w.handshakeOutcomes with _ | ⟨b, t⟩
  · simp [processRequest, h, hm, hl]
  · rw [hl] at hok
    have hb : b = true := by simpa using hok
    subst hb
    simp [processRequest, h, hm, hl]

theorem processRequest_fail (extract : String → Option String) (w : World) (m : Message)
    (a : String) (h : extract m.operator_id = some a)
    (hm : m.sequence_number ∉ w.st.processedRequestIds)
    (hok : w.handshakeOutcomes.headD true = false) :
    processRequest extract w m
      = ({ st := ⟨max w.st.lastProcessedMessage m.sequence_number,
                  w.st.processedRequestIds⟩,
           handshakeOutcomes := w.handshakeOutcomes.tail,
           sendOutcomes := w.sendOutcomes },
         [Event.invokeHandshake m.sequence_number,
          Event.handshakeError m.sequence_number]) := by
  rcases hl : w.handshakeOutcomes with _ | ⟨b, t⟩
  · rw [hl] at hok
    simp at hok
  · rw [hl] at hok
    have hb : b = false := by simpa using hok
    subst hb
    simp [processRequest, h, hm, hl]

/-! ### Per-request invariants -/

theorem countEvent_le_left {e : Event} {l₁ l₂ evs : List Event} (h : evs = l₁ ++ l₂) :
    countEvent e l₁ ≤ countEvent e evs := by
  subst h; rw [countEvent_append]; omega

theorem countEvent_le_right {e : Event} {l₁ l₂ evs : List Event} (h : evs = l₁ ++ l₂) :
    countEvent e l₂ ≤ countEvent e evs := by
  subst h; rw [countEvent_append]; omega

theorem propE_of_no_success {n : Nat} {evs : List Event}
    (h : countEvent (Event.handshakeSuccess n) evs = 0) :
    ∀ l₁ l₂, evs = l₁ ++ l₂ → 1 ≤ countEvent (Event.handshakeSuccess n) l₁ →
      countEvent (Event.invokeHandshake n) l₂ = 0 := by
  intro l₁ l₂ hsplit hs
  have := countEvent_le_left (e := Event.handshakeSuccess n) hsplit
  omega

theorem propE_of_head_invoke {n : Nat} {rest : List Event}
    (hrest : countEvent (Event.invokeHandshake n) rest = 0) :
    ∀ l₁ l₂, Event.invokeHandshake n :: rest = l₁ ++ l₂ →
      1 ≤ countEvent (Event.handshakeSuccess n) l₁ →
      countEvent (Event.invokeHandshake n) l₂ = 0 := by
  intro l₁ l₂ hsplit hs
  cases l₁ with
  | nil => simp [countEvent_nil] at hs
  | cons x l₁ =>
      rw [List.cons_append] at hsplit
      injection hsplit with h1 h2
      have := countEvent_le_right (e := Event.invokeHandshake n) h2
      omega

theorem processRequest_inv_simple {n : Nat} (w' : World) (evs : List Event) (w : World)
    (hmono : n ∈ w.st.processedRequestIds → n ∈ w'.st.processedRequestIds)
    (hsucc : countEvent (Event.handshakeSuccess n) evs = 0)
    (hsend : Event.sendWelcome n ∉ evs)
    (hinv : n ∈ w.st.processedRequestIds → countEvent (Event.invokeHandshake n) evs = 0) :
    (n ∈ w.st.processedRequestIds → countEvent (Event.invokeHandshake n) evs = 0)
  ∧ (n ∈ w.st.processedRequestIds → countEvent (Event.handshakeSuccess n) evs = 0)
  ∧ (n ∈ w.st.processedRequestIds → n ∈ w'.st.processedRequestIds)
  ∧ (1 ≤ countEvent (Event.handshakeSuccess n) evs → n ∈ w'.st.processedRequestIds)
  ∧ countEvent (Event.handshakeSuccess n) evs ≤ 1
  ∧ (∀ l₁ l₂, evs = l₁ ++ l₂ → 1 ≤ countEvent (Event.handshakeSuccess n) l₁ →
        countEvent (Event.invokeHandshake n) l₂ = 0)
  ∧ (Event.sendWelcome n ∈ evs → n ∈ w'.st.processedRequestIds) := by
  refine ⟨hinv, fun _ => hsucc, hmono, ?_, by omega,
    propE_of_no_success hsucc, fun h => absurd h hsend⟩
  intro h; omega

theorem processRequest_inv (extract : String → Option String) (w : World) (m : Message)
    (n : Nat) :
    (n ∈ w.st.processedRequestIds →
        countEvent (Event.invokeHandshake n) (processRequest extract w m).2 = 0)
  ∧ (n ∈ w.st.processedRequestIds →
        countEvent (Event.handshakeSuccess n) (processRequest extract w m).2 = 0)
  ∧ (n ∈ w.st.processedRequestIds →
        n ∈ (processRequest extract w m).1.st.processedRequestIds)
  ∧ (1 ≤ countEvent (Event.handshakeSuccess n) (processRequest extract w m).2 →
        n ∈ (processRequest extract w m).1.st.processedRequestIds)
  ∧ countEvent (Event.handshakeSuccess n) (processRequest extract w m).2 ≤ 1
  ∧ (∀ l₁ l₂, (processRequest extract w m).2 = l₁ ++ l₂ →
        1 ≤ countEvent (Event.handshakeSuccess n) l₁ →
        countEvent (Event.invokeHandshake n) l₂ = 0)
  ∧ (Event.sendWelcome n ∈ (processRequest extract w m).2 →
        n ∈ (processRequest extract w m).1.st.processedRequestIds) := by
  rcases hex : extract m.operator_id with _ | a
  · rw [processRequest_none extract w m hex]
    exact processRequest_inv_simple _ _ w (fun h => by simpa using h)
      (by simp [countEvent_cons, countEvent_nil])
      (by simp) (fun _ => by simp [countEvent_cons, countEvent_nil])
  · by_cases hmem : m.sequence_number ∈ w.st.processedRequestIds
    · rw [processRequest_skip extract w m a hex hmem]
      exact processRequest_inv_simple _ _ w (fun h => by simpa using h)
        (by simp [countEvent_cons, countEvent_nil])
        (by simp) (fun _ => by simp [countEvent_cons, countEvent_nil])
    · cases hok : w.handshakeOutcomes.headD true
      · rw [processRequest_fail extract w m a hex hmem hok]
        refine processRequest_inv_simple _ _ w (fun h => by simpa using h)
          (by simp [countEvent_cons, countEvent_nil]) (by simp) ?_
        intro hn
        have hne : m.sequence_number ≠ n := fun h => hmem (h ▸ hn)
        simp [countEvent_cons, countEvent_nil, hne]
      · rw [processRequest_ok extract w m a hex hmem hok]
        by_cases hn : n = m.sequence_number
        · subst hn
          cases hsd : w.sendOutcomes.headD true <;>
            simp only [hsd, if_true, if_false, List.append_nil, List.cons_append,
              List.nil_append] <;>
            refine ⟨?_, ?_, ?_, ?_, ?_, ?_, ?_⟩
          · intro hmem'; exact absurd hmem' hmem
          · intro hmem'; exact absurd hmem' hmem
          · intro hmem'; exact absurd hmem' hmem
          · intro _; exact mem_addId.2 (Or.inl rfl)
          · simp [countEvent_cons, countEvent_nil]
          · exact propE_of_head_invoke (by simp [countEvent_cons, countEvent_nil])
          · intro _; exact mem_addId.2 (Or.inl rfl)
          · intro hmem'; exact absurd hmem' hmem
          · intro hmem'; exact absurd hmem' hmem
          · intro hmem'; exact absurd hmem' hmem
          · intro _; exact mem_addId.2 (Or.inl rfl)
          · simp [countEvent_cons, countEvent_nil]
          · exact propE_of_head_invoke (by simp [countEvent_cons, countEvent_nil])
          · intro _; exact mem_addId.2 (Or.inl rfl)
        · have hne : m.sequence_number ≠ n := fun h => hn h.symm
          refine processRequest_inv_simple _ _ w
            (fun h => by simpa using mem_addId.2 (Or.inr h)) ?_ ?_ ?_
          · cases hsd : w.sendOutcomes.headD true <;>
              simp [hsd, countEvent_append, countEvent_cons, countEvent_nil, hne, hn]
          · cases hsd : w.sendOutcomes.headD true <;> simp [hsd, hne, hn]
          · intro _
            cases hsd : w.sendOutcomes.headD true <;>
              simp [hsd, countEvent_append, countEvent_cons, countEvent_nil, hne, hn]

/-! ### Batch, poll and loop invariants -/

theorem propE_append {n : Nat} {a b : List Event}
    (ha : ∀ l₁ l₂, a = l₁ ++ l₂ → 1 ≤ countEvent (Event.handshakeSuccess n) l₁ →
        countEvent (Event.invokeHandshake n) l₂ = 0)
    (hb : ∀ l₁ l₂, b = l₁ ++ l₂ → 1 ≤ countEvent (Event.handshakeSuccess n) l₁ →
        countEvent (Event.invokeHandshake n) l₂ = 0)
    (hcross : 1 ≤ countEvent (Event.handshakeSuccess n) a →
        countEvent (Event.invokeHandshake n) b = 0) :
    ∀ l₁ l₂, a ++ b = l₁ ++ l₂ → 1 ≤ countEvent (Event.handshakeSuccess n) l₁ →
      countEvent (Event.invokeHandshake n) l₂ = 0 := by
  intro l₁ l₂ hsplit hs
  rcases List.append_eq_append_iff.1 hsplit with ⟨c, hc1, hc2⟩ | ⟨c, hc1, hc2⟩
  · -- l₁ = a ++ c, b = c ++ l₂
    by_cases hcs : 1 ≤ countEvent (Event.handshakeSuccess n) c
    · exact hb c l₂ hc2 hcs
    · have hsa : 1 ≤ countEvent (Event.handshakeSuccess n) a := by
        have := countEvent_append (Event.handshakeSuccess n) a c
        rw [← hc1] at this
        omega
      have hb0 := hcross hsa
      have := countEvent_le_right (e := Event.invokeHandshake n) hc2
      omega
  · -- a = l₁ ++ c, l₂ = c ++ b
    have hcc := ha l₁ c hc1 hs
    have hsa : 1 ≤ countEvent (Event.handshakeSuccess n) a := by
      have := countEvent_le_left (e := Event.handshakeSuccess n) hc1
      omega
    have hb0 := hcross hsa
    rw [hc2, countEvent_append]
    omega

theorem processBatch_inv (extract : String → Option String) (n : Nat) :
    ∀ (msgs : List Message) (w : World),
    (n ∈ w.st.processedRequestIds →
        countEvent (Event.invokeHandshake n) (processBatch extract w msgs).2 = 0)
  ∧ (n ∈ w.st.processedRequestIds →
        countEvent (Event.handshakeSuccess n) (processBatch extract w msgs).2 = 0)
  ∧ (n ∈ w.st.processedRequestIds →
        n ∈ (processBatch extract w msgs).1.st.processedRequestIds)
  ∧ (1 ≤ countEvent (Event.handshakeSuccess n) (processBatch extract w msgs).2 →
        n ∈ (processBatch extract w msgs).1.st.processedRequestIds)
  ∧ countEvent (Event.handshakeSuccess n) (processBatch extract w msgs).2 ≤ 1
  ∧ (∀ l₁ l₂, (processBatch extract w msgs).2 = l₁ ++ l₂ →
        1 ≤ countEvent (Event.handshakeSuccess n) l₁ →
        countEvent (Event.invokeHandshake n) l₂ = 0)
  ∧ (Event.sendWelcome n ∈ (processBatch extract w msgs).2 →
        n ∈ (processBatch extract w msgs).1.st.processedRequestIds) := by
  intro msgs
  induction msgs with
  | nil =>
      intro w
      refine ⟨fun _ => rfl, fun _ => rfl, fun h => h, ?_, by simp [processBatch, countEvent_nil],
        ?_, ?_⟩
      · intro h; simp [processBatch, countEvent_nil] at h
      · intro l₁ l₂ hsplit hs
        have : countEvent (Event.handshakeSuccess n) ([] : List Event) = 0 := rfl
        exact propE_of_no_success this l₁ l₂ hsplit hs
      · intro h; simp [processBatch] at h
  | cons m rest ih =>
      intro w
      obtain ⟨pA, pA2, pB, pC, pD, pE, pG⟩ := processRequest_inv extract w m n
      obtain ⟨iA, iA2, iB, iC, iD, iE, iG⟩ := ih (processRequest extract w m).1
      have hbatch : processBatch extract w (m :: rest)
          = ((processBatch extract (processRequest extract w m).1 rest).1,
             (processRequest extract w m).2
               ++ (processBatch extract (processRequest extract w m).1 rest).2) := rfl
      rw [hbatch]
      refine ⟨?_, ?_, ?_, ?_, ?_, ?_, ?_⟩
      · intro h
        rw [countEvent_append, pA h, iA (pB h)]
      · intro h
        rw [countEvent_append, pA2 h, iA2 (pB h)]
      · exact fun h => iB (pB h)
      · intro h
        rw [countEvent_append] at h
        by_cases hq : 1 ≤ countEvent (Event.handshakeSuccess n)
            (processBatch extract (processRequest extract w m).1 rest).2
        · exact iC hq
        · have hp : 1 ≤ countEvent (Event.handshakeSuccess n) (processRequest extract w m).2 := by
            omega
          exact iB (pC hp)
      · rw [countEvent_append]
        by_cases hp : 1 ≤ countEvent (Event.handshakeSuccess n) (processRequest extract w m).2
        · have := iA2 (pC hp)
          omega
        · omega
      · exact propE_append pE iE (fun hp => iA (pC hp))
      · intro h
        rcases List.mem_append.1 h with h' | h'
        · exact iB (pG h')
        · exact iG h'

theorem pollStep_inv (extract : String → Option String) (w : World)
    (f : Option (List Message)) (n : Nat) :
    (n ∈ w.st.processedRequestIds →
        countEvent (Event.invokeHandshake n) (pollStep extract w f).2 = 0)
  ∧ (n ∈ w.st.processedRequestIds →
        countEvent (Event.handshakeSuccess n) (pollStep extract w f).2 = 0)
  ∧ (n ∈ w.st.processedRequestIds →
        n ∈ (pollStep extract w f).1.st.processedRequestIds)
  ∧ (1 ≤ countEvent (Event.handshakeSuccess n) (pollStep extract w f).2 →
        n ∈ (pollStep extract w f).1.st.processedRequestIds)
  ∧ countEvent (Event.handshakeSuccess n) (pollStep extract w f).2 ≤ 1
  ∧ (∀ l₁ l₂, (pollStep extract w f).2 = l₁ ++ l₂ →
        1 ≤ countEvent (Event.handshakeSuccess n) l₁ →
        countEvent (Event.invokeHandshake n) l₂ = 0)
  ∧ (Event.sendWelcome n ∈ (pollStep extract w f).2 →
        n ∈ (pollStep extract w f).1.st.processedRequestIds) := by
  cases f with
  | none =>
      refine ⟨fun _ => rfl, fun _ => rfl, fun h => h, ?_, ?_, ?_, ?_⟩
      · intro h; simp [pollStep, countEvent_cons, countEvent_nil] at h
      · simp [pollStep, countEvent_cons, countEvent_nil]
      · exact propE_of_no_success (by simp [pollStep, countEvent_cons, countEvent_nil])
      · intro h; simp [pollStep] at h
  | some msgs =>
      obtain ⟨bA, bA2, bB, bC, bD, bE, bG⟩ :=
        processBatch_inv extract n (requestFilter w.st.lastProcessedMessage msgs)
          { w with st := ⟨w.st.lastProcessedMessage,
              confirmationScan w.st.processedRequestIds msgs⟩ }
      have hmem1 : n ∈ w.st.processedRequestIds →
          n ∈ confirmationScan w.st.processedRequestIds msgs :=
        fun h => mem_confirmationScan_of_mem msgs h
      have hpoll : pollStep extract w (some msgs)
          = ((processBatch extract
                { w with st := ⟨w.st.lastProcessedMessage,
                    confirmationScan w.st.processedRequestIds msgs⟩ }
                (requestFilter w.st.lastProcessedMessage msgs)).1,
             (processBatch extract
                { w with st := ⟨w.st.lastProcessedMessage,
                    confirmationScan w.st.processedRequestIds msgs⟩ }
                (requestFilter w.st.lastProcessedMessage msgs)).2
               ++ [Event.sleep 2000]) := rfl
      rw [hpoll]
      refine ⟨?_, ?_, ?_, ?_, ?_, ?_, ?_⟩
      · intro h
        rw [countEvent_append, bA (hmem1 h)]
        simp [countEvent_cons, countEvent_nil]
      · intro h
        rw [countEvent_append, bA2 (hmem1 h)]
        simp [countEvent_cons, countEvent_nil]
      · exact fun h => bB (hmem1 h)
      · intro h
        rw [countEvent_append] at h
        have hz : countEvent (Event.handshakeSuccess n) [Event.sleep 2000] = 0 := rfl
        exact bC (by omega)
      · rw [countEvent_append]
        have hz : countEvent (Event.handshakeSuccess n) [Event.sleep 2000] = 0 := rfl
        omega
      · refine propE_append bE (propE_of_no_success rfl) (fun _ => rfl)
      · intro h
        rcases List.mem_append.1 h with h' | h'
        · exact bG h'
        · simp at h'

theorem runPolls_inv (extract : String → Option String) (n : Nat) :
    ∀ (fetches : List (Option (List Message))) (w : World),
    (n ∈ w.st.processedRequestIds →
        countEvent (Event.invokeHandshake n) (runPolls extract w fetches).2 = 0)
  ∧ (n ∈ w.st.processedRequestIds →
        countEvent (Event.handshakeSuccess n) (runPolls extract w fetches).2 = 0)
  ∧ (n ∈ w.st.processedRequestIds →
        n ∈ (runPolls extract w fetches).1.st.processedRequestIds)
  ∧ (1 ≤ countEvent (Event.handshakeSuccess n) (runPolls extract w fetches).2 →
        n ∈ (runPolls extract w fetches).1.st.processedRequestIds)
  ∧ countEvent (Event.handshakeSuccess n) (runPolls extract w fetches).2 ≤ 1
  ∧ (∀ l₁ l₂, (runPolls extract w fetches).2 = l₁ ++ l₂ →
        1 ≤ countEvent (Event.handshakeSuccess n) l₁ →
        countEvent (Event.invokeHandshake n) l₂ = 0)
  ∧ (Event.sendWelcome n ∈ (runPolls extract w fetches).2 →
        n ∈ (runPolls extract w fetches).1.st.processedRequestIds) := by
  intro fetches
  induction fetches with
  | nil =>
      intro w
      refine ⟨fun _ => rfl, fun _ => rfl, fun h => h, ?_, by simp [runPolls, countEvent_nil],
        ?_, ?_⟩
      · intro h; simp [runPolls, countEvent_nil] at h
      · exact propE_of_no_success rfl
      · intro h; simp [runPolls] at h
  | cons f fs ih =>
      intro w
      obtain ⟨pA, pA2, pB, pC, pD, pE, pG⟩ := pollStep_inv extract w f n
      obtain ⟨iA, iA2, iB, iC, iD, iE, iG⟩ := ih (pollStep extract w f).1
      have hrun : runPolls extract w (f :: fs)
          = ((runPolls extract (pollStep extract w f).1 fs).1,
             (pollStep extract w f).2 ++ (runPolls extract (pollStep extract w f).1 fs).2) := rfl
      rw [hrun]
      refine ⟨?_, ?_, ?_, ?_, ?_, ?_, ?_⟩
      · intro h
        rw [countEvent_append, pA h, iA (pB h)]
      · intro h
        rw [countEvent_append, pA2 h, iA2 (pB h)]
      · exact fun h => iB (pB h)
      · intro h
        rw [countEvent_append] at h
        by_cases hq : 1 ≤ countEvent (Event.handshakeSuccess n)
            (runPolls extract (pollStep extract w f).1 fs).2
        · exact iC hq
        · have hp : 1 ≤ countEvent (Event.handshakeSuccess n) (pollStep extract w f).2 := by
            omega
          exact iB (pC hp)
      · rw [countEvent_append]
        by_cases hp : 1 ≤ countEvent (Event.handshakeSuccess n) (pollStep extract w f).2
        · have := iA2 (pC hp)
          omega
        · omega
      · exact propE_append pE iE (fun hp => iA (pC hp))
      · intro h
        rcases List.mem_append.1 h with h' | h'
        · exact iB (pG h')
        · exact iG h'

/-! ### Watermark lemmas -/

theorem processRequest_lm (extract : String → Option String) (w : World) (m : Message) :
    (processRequest extract w m).1.st.lastProcessedMessage
      = max w.st.lastProcessedMessage m.sequence_number := by
  rcases hex : extract m.operator_id with _ | a
  · rw [processRequest_none extract w m hex]
  · by_cases hmem : m.sequence_number ∈ w.st.processedRequestIds
    · rw [processRequest_skip extract w m a hex hmem]
    · cases hok : w.handshakeOutcomes.headD true
      · rw [processRequest_fail extract w m a hex hmem hok]
      · rw [processRequest_ok extract w m a hex hmem hok]

theorem processBatch_lm (extract : String → Option String) :
    ∀ (msgs : List Message) (w : World),
      (processBatch extract w msgs).1.st.lastProcessedMessage
        = msgs.foldl (fun a m => max a m.sequence_number) w.st.lastProcessedMessage := by
  intro msgs
  induction msgs with
  | nil => intro w; rfl
  | cons m rest ih =>
      intro w
      show (processBatch extract (processRequest extract w m).1 rest).1.st.lastProcessedMessage = _
      rw [ih, processRequest_lm]
      simp [List.foldl_cons]

theorem foldl_max_max : ∀ (l : List Nat) (a b : Nat),
    l.foldl max (max a b) = max a (l.foldl max b) := by
  intro l
  induction l with
  | nil => intro a b; rfl
  | cons c l ih =>
      intro a b
      simp only [List.foldl_cons]
      rw [max_assoc]
      exact ih a (max b c)

theorem foldl_requestFilter_eq (lm : Nat) :
    ∀ (msgs : List Message) (a : Nat), lm ≤ a →
      (requestFilter lm msgs).foldl (fun x m => max x m.sequence_number) a
        = ((msgs.filter (fun m => m.op == "connection_request")).map
            (fun m => m.sequence_number)).foldl max a := by
  have hrw : ∀ l, requestFilter lm l
      = l.filter (fun m => m.op == "connection_request" && decide (lm < m.sequence_number)) :=
    fun _ => rfl
  intro msgs
  induction msgs with
  | nil => intro a _; rfl
  | cons m rest ih =>
      intro a ha
      by_cases hop : m.op = "connection_request"
      · have h2 : (m.op == "connection_request") = true := by simp [hop]
        by_cases hseq : lm < m.sequence_number
        · have h1 : (m.op == "connection_request" && decide (lm < m.sequence_number)) = true := by
            simp [hop, hseq]
          rw [hrw, List.filter_cons, List.filter_cons, h1, h2, if_pos rfl, if_pos rfl]
          simp only [List.map_cons, List.foldl_cons]
          rw [← hrw]
          exact ih (max a m.sequence_number) (le_trans ha (le_max_left _ _))
        · have h1 : (m.op == "connection_request" && decide (lm < m.sequence_number)) = false := by
            simp [hop, hseq]
          have hmax : max a m.sequence_number = a :=
            Nat.max_eq_left (le_trans (Nat.le_of_not_lt hseq) ha)
          rw [hrw, List.filter_cons, List.filter_cons, h1, h2, if_neg (by simp), if_pos rfl]
          simp only [List.map_cons, List.foldl_cons]
          rw [hmax, ← hrw]
          exact ih a ha
      · have h2 : (m.op == "connection_request") = false := by simp [hop]
        have h1 : (m.op == "connection_request" && decide (lm < m.sequence_number)) = false := by
          simp [h2]
        rw [hrw, List.filter_cons, List.filter_cons, h1, h2, if_neg (by simp), if_neg (by simp)]
        rw [← hrw]
        exact ih a ha

theorem pollStep_lm_some (extract : String → Option String) (w : World) (msgs : List Message) :
    (pollStep extract w (some msgs)).1.st.lastProcessedMessage
      = max w.st.lastProcessedMessage (reqMaxSeq msgs) := by
  show (processBatch extract
      { w with st := ⟨w.st.lastProcessedMessage,
          confirmationScan w.st.processedRequestIds msgs⟩ }
      (requestFilter w.st.lastProcessedMessage msgs)).1.st.lastProcessedMessage = _
  rw [processBatch_lm]
  show (requestFilter w.st.lastProcessedMessage msgs).foldl
      (fun a m => max a m.sequence_number) w.st.lastProcessedMessage = _
  rw [foldl_requestFilter_eq w.st.lastProcessedMessage msgs w.st.lastProcessedMessage le_rfl]
  unfold reqMaxSeq
  have h2 := foldl_max_max
    ((msgs.filter (fun m => m.op == "connection_request")).map (fun m => m.sequence_number))
    w.st.lastProcessedMessage 0
  rw [Nat.max_zero] at h2
  exact h2

theorem pollStep_lm_mono (extract : String → Option String) (w : World)
    (f : Option (List Message)) :
    w.st.lastProcessedMessage ≤ (pollStep extract w f).1.st.lastProcessedMessage := by
  cases f with
  | none => exact le_rfl
  | some msgs => rw [pollStep_lm_some]; exact le_max_left _ _

theorem runPolls_lm (extract : String → Option String) :
    ∀ (fetches : List (Option (List Message))) (w : World),
      (runPolls extract w fetches).1.st.lastProcessedMessage
        = fetches.foldl
            (fun a f =>
              match f with
              | some msgs => max a (reqMaxSeq msgs)
              | none => a) w.st.lastProcessedMessage := by
  intro fetches
  induction fetches with
  | nil => intro w; rfl
  | cons f fs ih =>
      intro w
      show (runPolls extract (pollStep extract w f).1 fs).1.st.lastProcessedMessage = _
      rw [ih]
      simp only [List.foldl_cons]
      cases f with
      | none => rfl
      | some msgs => rw [pollStep_lm_some]

theorem le_foldl_pollmax : ∀ (fs : List (Option (List Message))) (a : Nat),
    a ≤ fs.foldl
        (fun a f =>
          match f with
          | some msgs => max a (reqMaxSeq msgs)
          | none => a) a := by
  intro fs
  have key : ∀ (l : List (Option (List Message))) (a b : Nat), a ≤ b →
      a ≤ l.foldl
        (fun a f =>
          match f with
          | some msgs => max a (reqMaxSeq msgs)
          | none => a) b := by
    intro l
    induction l with
    | nil => intro a b h; simpa using h
    | cons f fs ih =>
        intro a b h
        simp only [List.foldl_cons]
        cases f with
        | none => exact ih a b h
        | some msgs => exact ih a (max b (reqMaxSeq msgs)) (le_trans h (le_max_left _ _))
  exact fun a => key fs a a le_rfl

theorem runPolls_lm_mono (extract : String → Option String) :
    ∀ (fetches : List (Option (List Message))) (w : World),
      w.st.lastProcessedMessage ≤ (runPolls extract w fetches).1.st.lastProcessedMessage := by
  intro fetches
  induction fetches with
  | nil => intro w; exact le_rfl
  | cons f fs ih =>
      intro w
      exact le_trans (pollStep_lm_mono extract w f) (ih (pollStep extract w f).1)

/-! ### Invocation ordering lemmas -/

theorem invokedSeqs_append (a b : List Event) :
    invokedSeqs (a ++ b) = invokedSeqs a ++ invokedSeqs b := by
  simp [invokedSeqs, List.filterMap_append]

theorem processRequest_invoked (extract : String → Option String) (w : World) (m : Message) :
    invokedSeqs (processRequest extract w m).2 = []
    ∨ invokedSeqs (processRequest extract w m).2 = [m.sequence_number] := by
  rcases hex : extract m.operator_id with _ | a
  · rw [processRequest_none extract w m hex]
    left; rfl
  · by_cases hmem : m.sequence_number ∈ w.st.processedRequestIds
    · rw [processRequest_skip extract w m a hex hmem]
      left; rfl
    · cases hok : w.handshakeOutcomes.headD true
      · rw [processRequest_fail extract w m a hex hmem hok]
        right; rfl
      · rw [processRequest_ok extract w m a hex hmem hok]
        right
        cases hsd : w.sendOutcomes.headD true <;> simp [hsd, invokedSeqs]

theorem processBatch_invoked_sublist (extract : String → Option String) :
    ∀ (msgs : List Message) (w : World),
      (invokedSeqs (processBatch extract w msgs).2).Sublist
        (msgs.map (fun m => m.sequence_number)) := by
  intro msgs
  induction msgs with
  | nil => intro w; simp [processBatch, invokedSeqs]
  | cons m rest ih =>
      intro w
      have hbatch : (processBatch extract w (m :: rest)).2
          = (processRequest extract w m).2
            ++ (processBatch extract (processRequest extract w m).1 rest).2 := rfl
      rw [hbatch, invokedSeqs_append, List.map_cons]
      rcases processRequest_invoked extract w m with h | h
      · rw [h, List.nil_append]
        exact (ih (processRequest extract w m).1).cons _
      · rw [h, List.singleton_append]
        exact (ih (processRequest extract w m).1).cons₂ _

theorem mem_requestFilter {lm : Nat} {msgs : List Message} {m : Message}
    (h : m ∈ requestFilter lm msgs) :
    m ∈ msgs ∧ m.op = "connection_request" ∧ lm < m.sequence_number := by
  have h' := List.mem_filter.1 h
  refine ⟨h'.1, ?_, ?_⟩
  · have := h'.2
    simp only [Bool.and_eq_true, beq_iff_eq, decide_eq_true_eq] at this
    exact this.1
  · have := h'.2
    simp only [Bool.and_eq_true, beq_iff_eq, decide_eq_true_eq] at this
    exact this.2

theorem le_foldl_acc : ∀ (msgs : List Message) (a : Nat),
    a ≤ msgs.foldl (fun b m => max b m.sequence_number) a := by
  intro msgs
  induction msgs with
  | nil => intro a; exact le_rfl
  | cons m rest ih =>
      intro a
      simp only [List.foldl_cons]
      exact le_trans (le_max_left _ _) (ih (max a m.sequence_number))

theorem seq_le_foldl : ∀ (msgs : List Message) (a x : Nat),
    x ∈ msgs.map (fun m => m.sequence_number) →
    x ≤ msgs.foldl (fun b m => max b m.sequence_number) a := by
  intro msgs
  induction msgs with
  | nil => intro a x hx; simp at hx
  | cons m rest ih =>
      intro a x hx
      simp only [List.map_cons, List.mem_cons] at hx
      simp only [List.foldl_cons]
      rcases hx with rfl | hx
      · exact le_trans (le_max_right _ _) (le_foldl_acc rest (max a m.sequence_number))
      · exact ih (max a m.sequence_number) x hx

theorem pollStep_invoked_some (extract : String → Option String) (w : World)
    (msgs : List Message) :
    invokedSeqs (pollStep extract w (some msgs)).2
      = invokedSeqs (processBatch extract
          { w with st := ⟨w.st.lastProcessedMessage,
              confirmationScan w.st.processedRequestIds msgs⟩ }
          (requestFilter w.st.lastProcessedMessage msgs)).2 := by
  have hpoll : (pollStep extract w (some msgs)).2
      = (processBatch extract
          { w with st := ⟨w.st.lastProcessedMessage,
              confirmationScan w.st.processedRequestIds msgs⟩ }
          (requestFilter w.st.lastProcessedMessage msgs)).2 ++ [Event.sleep 2000] := rfl
  rw [hpoll, invokedSeqs_append]
  simp [invokedSeqs]

theorem pollStep_invoked_bounds (extract : String → Option String) (w : World)
    (msgs : List Message) (x : Nat)
    (hx : x ∈ invokedSeqs (pollStep extract w (some msgs)).2) :
    w.st.lastProcessedMessage < x
    ∧ x ≤ (pollStep extract w (some msgs)).1.st.lastProcessedMessage := by
  rw [pollStep_invoked_some] at hx
  have hsub := processBatch_invoked_sublist extract
    (requestFilter w.st.lastProcessedMessage msgs)
    { w with st := ⟨w.st.lastProcessedMessage,
        confirmationScan w.st.processedRequestIds msgs⟩ }
  have hx' : x ∈ (requestFilter w.st.lastProcessedMessage msgs).map
      (fun m => m.sequence_number) := hsub.subset hx
  constructor
  · rcases List.mem_map.1 hx' with ⟨m, hm, rfl⟩
    exact (mem_requestFilter hm).2.2
  · rw [pollStep_lm_some]
    have hle : x ≤ (requestFilter w.st.lastProcessedMessage msgs).foldl
        (fun b m => max b m.sequence_number) w.st.lastProcessedMessage :=
      seq_le_foldl _ _ _ hx'
    rw [foldl_requestFilter_eq w.st.lastProcessedMessage msgs _ le_rfl] at hle
    unfold reqMaxSeq
    have h2 := foldl_max_max
      ((msgs.filter (fun m => m.op == "connection_request")).map (fun m => m.sequence_number))
      w.st.lastProcessedMessage 0
    rw [Nat.max_zero] at h2
    rw [← h2]
    exact hle

theorem runPolls_invoked_bounds (extract : String → Option String) :
    ∀ (fetches : List (Option (List Message))) (w : World) (x : Nat),
      x ∈ invokedSeqs (runPolls extract w fetches).2 →
      w.st.lastProcessedMessage < x
      ∧ x ≤ (runPolls extract w fetches).1.st.lastProcessedMessage := by
  intro fetches
  induction fetches with
  | nil => intro w x hx; simp [runPolls, invokedSeqs] at hx
  | cons f fs ih =>
      intro w x hx
      have hrun : (runPolls extract w (f :: fs)).2
          = (pollStep extract w f).2 ++ (runPolls extract (pollStep extract w f).1 fs).2 := rfl
      have hst : (runPolls extract w (f :: fs)).1
          = (runPolls extract (pollStep extract w f).1 fs).1 := rfl
      rw [hrun, invokedSeqs_append] at hx
      rw [hst]
      rcases List.mem_append.1 hx with hx' | hx'
      · cases f with
        | none => simp [pollStep, invokedSeqs] at hx'
        | some msgs =>
            obtain ⟨hlo, hhi⟩ := pollStep_invoked_bounds extract w msgs x hx'
            exact ⟨hlo, le_trans hhi (runPolls_lm_mono extract fs _)⟩
      · obtain ⟨hlo, hhi⟩ := ih (pollStep extract w f).1 x hx'
        exact ⟨lt_of_le_of_lt (pollStep_lm_mono extract w f) hlo, hhi⟩

theorem pollStep_invoked_pairwise (extract : String → Option String) (w : World)
    (msgs : List Message)
    (h : (msgs.map (fun m => m.sequence_number)).Pairwise (· ≤ ·)) :
    (invokedSeqs (pollStep extract w (some msgs)).2).Pairwise (· ≤ ·) := by
  rw [pollStep_invoked_some]
  have hsub := processBatch_invoked_sublist extract
    (requestFilter w.st.lastProcessedMessage msgs)
    { w with st := ⟨w.st.lastProcessedMessage,
        confirmationScan w.st.processedRequestIds msgs⟩ }
  have hsub2 : ((requestFilter w.st.lastProcessedMessage msgs).map
      (fun m => m.sequence_number)).Sublist (msgs.map (fun m => m.sequence_number)) :=
    (List.filter_sublist msgs).map _
  exact h.sublist (hsub.trans hsub2)

theorem runPolls_invoked_pairwise (extract : String → Option String) :
    ∀ (fetches : List (Option (List Message))) (w : World),
      (∀ msgs, some msgs ∈ fetches →
          (msgs.map (fun m => m.sequence_number)).Pairwise (· ≤ ·)) →
      (invokedSeqs (runPolls extract w fetches).2).Pairwise (· ≤ ·) := by
  intro fetches
  induction fetches with
  | nil => intro w _; simp [runPolls, invokedSeqs]
  | cons f fs ih =>
      intro w hsorted
      have hrun : (runPolls extract w (f :: fs)).2
          = (pollStep extract w f).2 ++ (runPolls extract (pollStep extract w f).1 fs).2 := rfl
      rw [hrun, invokedSeqs_append]
      refine List.pairwise_append.2 ⟨?_, ?_, ?_⟩
      · cases f with
        | none => simp [pollStep, invokedSeqs]
        | some msgs =>
            exact pollStep_invoked_pairwise extract w msgs
              (hsorted msgs (List.mem_cons_self _ _))
      · exact ih (pollStep extract w f).1
          (fun msgs hm => hsorted msgs (List.mem_cons_of_mem _ hm))
      · intro x hx y hy
        cases f with
        | none => simp [pollStep, invokedSeqs] at hx
        | some msgs =>
            have hhi := (pollStep_invoked_bounds extract w msgs x hx).2
            have hlo := (runPolls_invoked_bounds extract fs (pollStep extract w (some msgs)).1 y hy).1
            exact le_of_lt (lt_of_le_of_lt hhi hlo)

/-! ### Batch decomposition and watermark-insensitivity -/

theorem processBatch_append (extract : String → Option String) :
    ∀ (xs ys : List Message) (w : World),
      processBatch extract w (xs ++ ys)
        = ((processBatch extract (processBatch extract w xs).1 ys).1,
           (processBatch extract w xs).2
             ++ (processBatch extract (processBatch extract w xs).1 ys).2) := by
  intro xs
  induction xs with
  | nil => intro ys w; simp [processBatch]
  | cons m rest ih =>
      intro ys w
      have h1 : processBatch extract w ((m :: rest) ++ ys)
          = ((processBatch extract (processRequest extract w m).1 (rest ++ ys)).1,
             (processRequest extract w m).2
               ++ (processBatch extract (processRequest extract w m).1 (rest ++ ys)).2) := rfl
      have h2 : processBatch extract w (m :: rest)
          = ((processBatch extract (processRequest extract w m).1 rest).1,
             (processRequest extract w m).2
               ++ (processBatch extract (processRequest extract w m).1 rest).2) := rfl
      rw [h1, ih ys (processRequest extract w m).1, h2]
      simp [List.append_assoc]

theorem processRequest_agnostic (extract : String → Option String) (w w' : World)
    (m : Message)
    (hpri : w.st.processedRequestIds = w'.st.processedRequestIds)
    (hhs : w.handshakeOutcomes = w'.handshakeOutcomes)
    (hss : w.sendOutcomes = w'.sendOutcomes) :
    (processRequest extract w m).2 = (processRequest extract w' m).2
    ∧ (processRequest extract w m).1.st.processedRequestIds
        = (processRequest extract w' m).1.st.processedRequestIds
    ∧ (processRequest extract w m).1.handshakeOutcomes
        = (processRequest extract w' m).1.handshakeOutcomes
    ∧ (processRequest extract w m).1.sendOutcomes
        = (processRequest extract w' m).1.sendOutcomes := by
  rcases hex : extract m.operator_id with _ | a
  · rw [processRequest_none extract w m hex, processRequest_none extract w' m hex]
    exact ⟨rfl, hpri, hhs, hss⟩
  · by_cases hmem : m.sequence_number ∈ w.st.processedRequestIds
    · have hmem' : m.sequence_number ∈ w'.st.processedRequestIds := hpri ▸ hmem
      rw [processRequest_skip extract w m a hex hmem,
        processRequest_skip extract w' m a hex hmem']
      exact ⟨rfl, hpri, hhs, hss⟩
    · have hmem' : m.sequence_number ∉ w'.st.processedRequestIds := hpri ▸ hmem
      cases hok : w.handshakeOutcomes.headD true
      · have hok' : w'.handshakeOutcomes.headD true = false := hhs ▸ hok
        rw [processRequest_fail extract w m a hex hmem hok,
          processRequest_fail extract w' m a hex hmem' hok']
        exact ⟨rfl, hpri, by rw [hhs], hss⟩
      · have hok' : w'.handshakeOutcomes.headD true = true := hhs ▸ hok
        rw [processRequest_ok extract w m a hex hmem hok,
          processRequest_ok extract w' m a hex hmem' hok']
        refine ⟨by rw [hss], by rw [hpri], by rw [hhs], by rw [hss]⟩

theorem processBatch_agnostic (extract : String → Option String) :
    ∀ (msgs : List Message) (w w' : World),
      w.st.processedRequestIds = w'.st.processedRequestIds →
      w.handshakeOutcomes = w'.handshakeOutcomes →
      w.sendOutcomes = w'.sendOutcomes →
      (processBatch extract w msgs).2 = (processBatch extract w' msgs).2
      ∧ (processBatch extract w msgs).1.st.processedRequestIds
          = (processBatch extract w' msgs).1.st.processedRequestIds
      ∧ (processBatch extract w msgs).1.handshakeOutcomes
          = (processBatch extract w' msgs).1.handshakeOutcomes
      ∧ (processBatch extract w msgs).1.sendOutcomes
          = (processBatch extract w' msgs).1.sendOutcomes := by
  intro msgs
  induction msgs with
  | nil => intro w w' hpri hhs hss; exact ⟨rfl, hpri, hhs, hss⟩
  | cons m rest ih =>
      intro w w' hpri hhs hss
      obtain ⟨e1, e2, e3, e4⟩ := processRequest_agnostic extract w w' m hpri hhs hss
      obtain ⟨f1, f2, f3, f4⟩ :=
        ih (processRequest extract w m).1 (processRequest extract w' m).1 e2 e3 e4
      have h1 : processBatch extract w (m :: rest)
          = ((processBatch extract (processRequest extract w m).1 rest).1,
             (processRequest extract w m).2
               ++ (processBatch extract (processRequest extract w m).1 rest).2) := rfl
      have h2 : processBatch extract w' (m :: rest)
          = ((processBatch extract (processRequest extract w' m).1 rest).1,
             (processRequest extract w' m).2
               ++ (processBatch extract (processRequest extract w' m).1 rest).2) := rfl
      rw [h1, h2]
      exact ⟨by rw [e1, f1], f2, f3, f4⟩

/-! ### Mark-before-send lemmas -/

theorem markBeforeSend_of_not_mem {n : Nat} {evs : List Event}
    (h : Event.sendWelcome n ∉ evs) : markBeforeSend n evs := by
  intro l₁ l₂ hsplit
  have hmem : Event.sendWelcome n ∈ evs := by
    rw [hsplit]
    exact List.mem_append.2 (Or.inr (List.mem_cons_self _ _))
  exact absurd hmem h

theorem markBeforeSend_append {n : Nat} {a b : List Event}
    (ha : markBeforeSend n a) (hb : markBeforeSend n b) : markBeforeSend n (a ++ b) := by
  intro l₁ l₂ hsplit
  rcases List.append_eq_append_iff.1 hsplit with ⟨c, hc1, hc2⟩ | ⟨c, hc1, hc2⟩
  · have := hb c l₂ hc2
    rw [hc1]
    exact List.mem_append.2 (Or.inr this)
  · cases c with
    | nil =>
        have hb' : b = [] ++ Event.sendWelcome n :: l₂ := by
          simpa using hc2.symm
        have := hb [] l₂ hb'
        simp at this
    | cons e c' =>
        rw [List.cons_append] at hc2
        injection hc2 with h1 h2
        have ha' : a = l₁ ++ Event.sendWelcome n :: c' := by
          rw [hc1, ← h1]
        exact ha l₁ c' ha'

theorem processRequest_markBeforeSend (extract : String → Option String) (w : World)
    (m : Message) (n : Nat) : markBeforeSend n (processRequest extract w m).2 := by
  rcases hex : extract m.operator_id with _ | a
  · rw [processRequest_none extract w m hex]
    exact markBeforeSend_of_not_mem (by simp)
  · by_cases hmem : m.sequence_number ∈ w.st.processedRequestIds
    · rw [processRequest_skip extract w m a hex hmem]
      exact markBeforeSend_of_not_mem (by simp)
    · cases hok : w.handshakeOutcomes.headD true
      · rw [processRequest_fail extract w m a hex hmem hok]
        exact markBeforeSend_of_not_mem (by simp)
      · rw [processRequest_ok extract w m a hex hmem hok]
        by_cases hn : n = m.sequence_number
        · subst hn
          cases hsd : w.sendOutcomes.headD true <;>
            simp only [hsd, if_true, if_false, List.append_nil, List.cons_append,
              List.nil_append] <;>
            intro l₁ l₂ hsplit <;>
            rcases l₁ with _ | ⟨a1, _ | ⟨a2, _ | ⟨a3, l₁'⟩⟩⟩ <;>
            simp_all [List.cons_append]
        · have hne : Event.sendWelcome n
              ∉ (processRequest extract w m).2 := by
            rw [processRequest_ok extract w m a hex hmem hok]
            cases hsd : w.sendOutcomes.headD true <;> simp [hsd, hn]
          rw [processRequest_ok extract w m a hex hmem hok] at hne
          exact markBeforeSend_of_not_mem hne

theorem processBatch_markBeforeSend (extract : String → Option String) (n : Nat) :
    ∀ (msgs : List Message) (w : World),
      markBeforeSend n (processBatch extract w msgs).2 := by
  intro msgs
  induction msgs with
  | nil => intro w; exact markBeforeSend_of_not_mem (by simp [processBatch])
  | cons m rest ih =>
      intro w
      have hbatch : (processBatch extract w (m :: rest)).2
          = (processRequest extract w m).2
            ++ (processBatch extract (processRequest extract w m).1 rest).2 := rfl
      rw [hbatch]
      exact markBeforeSend_append (processRequest_markBeforeSend extract w m n)
        (ih (processRequest extract w m).1)

theorem pollStep_markBeforeSend (extract : String → Option String) (w : World)
    (f : Option (List Message)) (n : Nat) : markBeforeSend n (pollStep extract w f).2 := by
  cases f with
  | none => exact markBeforeSend_of_not_mem (by simp [pollStep])
  | some msgs =>
      have hpoll : (pollStep extract w (some msgs)).2
          = (processBatch extract
              { w with st := ⟨w.st.lastProcessedMessage,
                  confirmationScan w.st.processedRequestIds msgs⟩ }
              (requestFilter w.st.lastProcessedMessage msgs)).2 ++ [Event.sleep 2000] := rfl
      rw [hpoll]
      exact markBeforeSend_append (processBatch_markBeforeSend extract n _ _)
        (markBeforeSend_of_not_mem (by simp))

theorem runPolls_markBeforeSend (extract : String → Option String) (n : Nat) :
    ∀ (fetches : List (Option (List Message))) (w : World),
      markBeforeSend n (runPolls extract w fetches).2 := by
  intro fetches
  induction fetches with
  | nil => intro w; exact markBeforeSend_of_not_mem (by simp [runPolls])
  | cons f fs ih =>
      intro w
      have hrun : (runPolls extract w (f :: fs)).2
          = (pollStep extract w f).2 ++ (runPolls extract (pollStep extract w f).1 fs).2 := rfl
      rw [hrun]
      exact markBeforeSend_append (pollStep_markBeforeSend extract w f n)
        (ih (pollStep extract w f).1)

/-! ### Sleep counting -/

theorem processRequest_no_sleep (extract : String → Option String) (w : World) (m : Message) :
    countEvent (Event.sleep 2000) (processRequest extract w m).2 = 0 := by
  rcases hex : extract m.operator_id with _ | a
  · rw [processRequest_none extract w m hex]; rfl
  · by_cases hmem : m.sequence_number ∈ w.st.processedRequestIds
    · rw [processRequest_skip extract w m a hex hmem]; rfl
    · cases hok : w.handshakeOutcomes.headD true
      · rw [processRequest_fail extract w m a hex hmem hok]; rfl
      · rw [processRequest_ok extract w m a hex hmem hok]
        cases hsd : w.sendOutcomes.headD true <;>
          simp [hsd, countEvent_append, countEvent_cons, countEvent_nil]

theorem processBatch_no_sleep (extract : String → Option String) :
    ∀ (msgs : List Message) (w : World),
      countEvent (Event.sleep 2000) (processBatch extract w msgs).2 = 0 := by
  intro msgs
  induction msgs with
  | nil => intro w; rfl
  | cons m rest ih =>
      intro w
      have hbatch : (processBatch extract w (m :: rest)).2
          = (processRequest extract w m).2
            ++ (processBatch extract (processRequest extract w m).1 rest).2 := rfl
      rw [hbatch, countEvent_append, processRequest_no_sleep,
        ih (processRequest extract w m).1]

theorem pollStep_sleep_count (extract : String → Option String) (w : World)
    (f : Option (List Message)) :
    countEvent (Event.sleep 2000) (pollStep extract w f).2 = 1 := by
  cases f with
  | none => rfl
  | some msgs =>
      have hpoll : (pollStep extract w (some msgs)).2
          = (processBatch extract
              { w with st := ⟨w.st.lastProcessedMessage,
                  confirmationScan w.st.processedRequestIds msgs⟩ }
              (requestFilter w.st.lastProcessedMessage msgs)).2 ++ [Event.sleep 2000] := rfl
      rw [hpoll, countEvent_append, processBatch_no_sleep]
      rfl

theorem runPolls_sleep_count (extract : String → Option String) :
    ∀ (fetches : List (Option (List Message))) (w : World),
      countEvent (Event.sleep 2000) (runPolls extract w fetches).2 = fetches.length := by
  intro fetches
  induction fetches with
  | nil => intro w; rfl
  | cons f fs ih =>
      intro w
      have hrun : (runPolls extract w (f :: fs)).2
          = (pollStep extract w f).2 ++ (runPolls extract (pollStep extract w f).1 fs).2 := rfl
      rw [hrun, countEvent_append, pollStep_sleep_count, ih (pollStep extract w f).1]
      simp [List.length_cons, Nat.add_comm]

/-! ### retryWithBackoff lemmas -/

theorem retryGo_calls_le {E T : Type} (o : Nat → Except E T) (mr bd : Nat) :
    ∀ (fuel i : Nat), (retryGo o mr bd i fuel).2.1 ≤ fuel := by
  intro fuel
  induction fuel with
  | zero => intro i; exact le_rfl
  | succ fuel ih =>
      intro i
      cases ho : o i with
      | ok v => simp [retryGo, ho]
      | error e =>
          by_cases hi : i = mr - 1
          · subst hi
            have hr : retryGo o mr bd (mr - 1) (fuel + 1) = (RetryOutcome.err e, 1, []) := by
              simp [retryGo, ho]
            rw [hr]
            show (1 : Nat) ≤ fuel + 1
            omega
          · have hr : retryGo o mr bd i (fuel + 1)
                = ((retryGo o mr bd (i + 1) fuel).1,
                   (retryGo o mr bd (i + 1) fuel).2.1 + 1,
                   bd * 2 ^ i :: (retryGo o mr bd (i + 1) fuel).2.2) := by
              simp [retryGo, ho, hi]
            rw [hr]
            show (retryGo o mr bd (i + 1) fuel).2.1 + 1 ≤ fuel + 1
            have := ih (i + 1)
            omega

theorem retryGo_success {E T : Type} (o : Nat → Except E T) (mr bd : Nat) :
    ∀ (fuel i s : Nat) (v : T), s < fuel → i + fuel = mr →
      (∀ j, j < s → ∃ e, o (i + j) = Except.error e) →
      o (i + s) = Except.ok v →
      retryGo o mr bd i fuel
        = (RetryOutcome.ok v, s + 1, (List.range s).map (fun j => bd * 2 ^ (i + j))) := by
  intro fuel
  induction fuel with
  | zero => intro i s v hs; exact absurd hs (Nat.not_lt_zero s)
  | succ fuel ih =>
      intro i s v hs hmr hfail hok
      cases s with
      | zero =>
          rw [Nat.add_zero] at hok
          simp [retryGo, hok, List.range_zero]
      | succ s' =>
          obtain ⟨e, he⟩ := hfail 0 (Nat.succ_pos s')
          rw [Nat.add_zero] at he
          have hine : ¬ i = mr - 1 := by omega
          have hrec := ih (i + 1) s' v (by omega) (by omega)
            (fun j hj => by
              obtain ⟨e', he'⟩ := hfail (j + 1) (by omega)
              exact ⟨e', by rw [show i + 1 + j = i + (j + 1) by omega]; exact he'⟩)
            (by rw [show i + 1 + s' = i + (s' + 1) by omega]; exact hok)
          have hstep : retryGo o mr bd i (fuel + 1)
              = ((retryGo o mr bd (i + 1) fuel).1,
                 (retryGo o mr bd (i + 1) fuel).2.1 + 1,
                 bd * 2 ^ i :: (retryGo o mr bd (i + 1) fuel).2.2) := by
            simp [retryGo, he, hine]
          rw [hstep, hrec]
          refine congrArg _ ?_
          refine congrArg _ ?_
          rw [List.range_succ_eq_map, List.map_cons, List.map_map]
          have hexp : ((fun j => bd * 2 ^ (i + j)) ∘ Nat.succ) = fun j => bd * 2 ^ (i + 1 + j) := by
            funext j
            have : i + Nat.succ j = i + 1 + j := by omega
            simp [Function.comp, this]
          rw [hexp]
          simp

theorem retryGo_allfail {E T : Type} (o : Nat → Except E T) (mr bd : Nat) (es : Nat → E)
    (hfail : ∀ j, j < mr → o j = Except.error (es j)) :
    ∀ (fuel i : Nat), i + fuel = mr → 1 ≤ fuel →
      retryGo o mr bd i fuel
        = (RetryOutcome.err (es (mr - 1)), fuel,
           (List.range (fuel - 1)).map (fun j => bd * 2 ^ (i + j))) := by
  intro fuel
  induction fuel with
  | zero => intro i _ h1; exact absurd h1 (by omega)
  | succ fuel ih =>
      intro i hmr _
      have he := hfail i (by omega)
      by_cases hi : i = mr - 1
      · have hf0 : fuel = 0 := by omega
        subst hf0
        subst hi
        simp [retryGo, he, List.range_zero]
      · have hrec := ih (i + 1) (by omega) (by omega)
        have hstep : retryGo o mr bd i (fuel + 1)
            = ((retryGo o mr bd (i + 1) fuel).1,
               (retryGo o mr bd (i + 1) fuel).2.1 + 1,
               bd * 2 ^ i :: (retryGo o mr bd (i + 1) fuel).2.2) := by
          simp [retryGo, he, hi]
        rw [hstep, hrec]
        refine congrArg _ ?_
        refine congrArg _ ?_
        have hf1 : 1 ≤ fuel := by omega
        obtain ⟨k, rfl⟩ : ∃ k, fuel = k + 1 := ⟨fuel - 1, by omega⟩
        show bd * 2 ^ i
              :: List.map (fun j => bd * 2 ^ (i + 1 + j)) (List.range (k + 1 - 1))
            = List.map (fun j => bd * 2 ^ (i + j)) (List.range (k + 1 + 1 - 1))
        simp only [Nat.add_sub_cancel]
        rw [List.range_succ_eq_map, List.map_cons, List.map_map]
        have hexp : ((fun j => bd * 2 ^ (i + j)) ∘ Nat.succ) = fun j => bd * 2 ^ (i + 1 + j) := by
          funext j
          have : i + Nat.succ j = i + 1 + j := by omega
          simp [Function.comp, this]
        rw [hexp]
        simp

/-! ### Claim theorems -/

/-- C1: across every sequence of polls from loop start, a given request
sequence number n triggers at most one successful handshake invocation;
moreover once a success for n has happened, n is never handshake-invoked
again anywhere later in the trace, because the processed-set check precedes
every invocation. -/
theorem claim1_at_most_one_successful_handshake (extract : String → Option String)
    (hs ss : List Bool) (fetches : List (Option (List Message))) (n : Nat) :
    countEvent (Event.handshakeSuccess n)
        (runPolls extract (initialWorld hs ss) fetches).2 ≤ 1
    ∧ (∀ l₁ l₂, (runPolls extract (initialWorld hs ss) fetches).2 = l₁ ++ l₂ →
        1 ≤ countEvent (Event.handshakeSuccess n) l₁ →
        countEvent (Event.invokeHandshake n) l₂ = 0) := by
  obtain ⟨-, -, -, -, D, E, -⟩ := runPolls_inv extract n fetches (initialWorld hs ss)
  exact ⟨D, E⟩

/-- C1 witness: the at-most-once property evaluated on a concrete two-poll
schedule that presents the same request twice. -/
theorem claim1_witness :
    countEvent (Event.handshakeSuccess 1)
        (runPolls someExtract (initialWorld [] []) [some [reqMsg1], some [reqMsg1]]).2 ≤ 1
    ∧ (∀ l₁ l₂, (runPolls someExtract (initialWorld [] [])
          [some [reqMsg1], some [reqMsg1]]).2 = l₁ ++ l₂ →
        1 ≤ countEvent (Event.handshakeSuccess 1) l₁ →
        countEvent (Event.invokeHandshake 1) l₂ = 0) :=
  claim1_at_most_one_successful_handshake someExtract [] [] [some [reqMsg1], some [reqMsg1]] 1

/-- C3: after any schedule of polls from loop start the watermark equals the
maximum sequence number over all connection_request entries seen in any
successful fetch so far (0 if none); it is non-decreasing when further polls
are appended; and on the concrete example of poll 1 returning requests 1,2
and poll 2 returning 1,2,3 it reaches 2 and then 3, with requests 1 and 2
handshake-invoked exactly once in total. -/
theorem claim3_watermark (extract : String → Option String) (hs ss : List Bool)
    (fetches more : List (Option (List Message))) :
    (runPolls extract (initialWorld hs ss) fetches).1.st.lastProcessedMessage
        = seenReqMax fetches
    ∧ (runPolls extract (initialWorld hs ss) fetches).1.st.lastProcessedMessage
        ≤ (runPolls extract (initialWorld hs ss) (fetches ++ more)).1.st.lastProcessedMessage
    ∧ (runPolls someExtract (initialWorld [] [])
        [some [reqMsg1, reqMsg2]]).1.st.lastProcessedMessage = 2
    ∧ (runPolls someExtract (initialWorld [] [])
        [some [reqMsg1, reqMsg2], some [reqMsg1, reqMsg2, reqMsg3]]).1.st.lastProcessedMessage = 3
    ∧ countEvent (Event.invokeHandshake 1) (runPolls someExtract (initialWorld [] [])
        [some [reqMsg1, reqMsg2], some [reqMsg1, reqMsg2, reqMsg3]]).2 = 1
    ∧ countEvent (Event.invokeHandshake 2) (runPolls someExtract (initialWorld [] [])
        [some [reqMsg1, reqMsg2], some [reqMsg1, reqMsg2, reqMsg3]]).2 = 1 := by
  refine ⟨?_, ?_, by decide, by decide, by decide, by decide⟩
  · rw [runPolls_lm]
    rfl
  · rw [runPolls_lm, runPolls_lm, List.foldl_append]
    exact le_foldl_pollmax more _

/-- C5: a poll whose fetch returns an empty message list is an exact no-op on
the loop state: watermark, processed set and outcome schedules unchanged, no
handshake invocation, no error event, only the normal sleep. -/
theorem claim5_empty_poll_noop (extract : String → Option String) (w : World) :
    pollStep extract w (some []) = (w, [Event.sleep 2000]) := rfl

/-- C7: no error raised inside a poll terminates the loop: a failed fetch
leaves the state untouched and contributes exactly the logged error and the
normal 2000 ms sleep before the next poll runs unchanged; every scheduled
poll, even a failing one, ends in exactly one sleep; and the batch loop
always continues with the entries after the current one, whatever its
outcome. -/
theorem claim7_errors_not_fatal (extract : String → Option String) (w : World)
    (fetches : List (Option (List Message))) (m : Message) (rest : List Message) :
    pollStep extract w none = (w, [Event.fetchError, Event.sleep 2000])
    ∧ runPolls extract w (none :: fetches)
        = ((runPolls extract w fetches).1,
           Event.fetchError :: Event.sleep 2000 :: (runPolls extract w fetches).2)
    ∧ countEvent (Event.sleep 2000) (runPolls extract w fetches).2 = fetches.length
    ∧ processBatch extract w (m :: rest)
        = ((processBatch extract (processRequest extract w m).1 rest).1,
           (processRequest extract w m).2
             ++ (processBatch extract (processRequest extract w m).1 rest).2) :=
  ⟨rfl, rfl, runPolls_sleep_count extract fetches w, rfl⟩

/-- C8: in every run from loop start, each welcome-message send for request
id n is strictly preceded in the trace by the add of n to the processed set,
and whenever a welcome send for n was attempted the final processed set
contains n, whatever the outcome of the send. -/
theorem claim8_mark_before_welcome (extract : String → Option String) (hs ss : List Bool)
    (fetches : List (Option (List Message))) (n : Nat) :
    markBeforeSend n (runPolls extract (initialWorld hs ss) fetches).2
    ∧ (Event.sendWelcome n ∈ (runPolls extract (initialWorld hs ss) fetches).2 →
        n ∈ (runPolls extract (initialWorld hs ss) fetches).1.st.processedRequestIds) := by
  obtain ⟨-, -, -, -, -, -, G⟩ := runPolls_inv extract n fetches (initialWorld hs ss)
  exact ⟨runPolls_markBeforeSend extract n fetches (initialWorld hs ss), G⟩

/-- C8 witness: the mark-before-send property evaluated on a concrete run in
which the welcome send of request 1 fails. -/
theorem claim8_witness :
    markBeforeSend 1 (runPolls someExtract (initialWorld [] [false]) [some [reqMsg1]]).2
    ∧ (Event.sendWelcome 1 ∈ (runPolls someExtract (initialWorld [] [false]) [some [reqMsg1]]).2 →
        1 ∈ (runPolls someExtract
            (initialWorld [] [false]) [some [reqMsg1]]).1.st.processedRequestIds) :=
  claim8_mark_before_welcome someExtract [] [false] [some [reqMsg1]] 1

/-- C9: if every successful fetch returns its entries in ascending
sequence-number order, then the handshake invocations of the whole run are in
non-decreasing sequence-number order, and every invocation of a later segment
of polls carries a sequence number strictly greater than every invocation of
an earlier segment, because the watermark filter excludes already-scanned
entries. -/
theorem claim9_invocation_order (extract : String → Option String) (hs ss : List Bool)
    (fs₁ fs₂ : List (Option (List Message)))
    (hsorted : ∀ msgs, some msgs ∈ fs₁ ++ fs₂ →
        (msgs.map (fun m => m.sequence_number)).Pairwise (· ≤ ·)) :
    (invokedSeqs (runPolls extract (initialWorld hs ss) (fs₁ ++ fs₂)).2).Pairwise (· ≤ ·)
    ∧ ∀ x ∈ invokedSeqs (runPolls extract (initialWorld hs ss) fs₁).2,
        ∀ y ∈ invokedSeqs (runPolls extract
            (runPolls extract (initialWorld hs ss) fs₁).1 fs₂).2, x < y := by
  refine ⟨runPolls_invoked_pairwise extract (fs₁ ++ fs₂) (initialWorld hs ss) hsorted, ?_⟩
  intro x hx y hy
  have hhi := (runPolls_invoked_bounds extract fs₁ (initialWorld hs ss) x hx).2
  have hlo := (runPolls_invoked_bounds extract fs₂
    (runPolls extract (initialWorld hs ss) fs₁).1 y hy).1
  exact lt_of_le_of_lt hhi hlo

/-- C9 witness: the ordering property evaluated on the concrete schedule of
polls returning requests 1,2 and then 1,2,3 in ascending order. -/
theorem claim9_witness :
    (∀ msgs, some msgs ∈ ([some [reqMsg1, reqMsg2]] ++ [some [reqMsg1, reqMsg2, reqMsg3]]) →
        (msgs.map (fun m => m.sequence_number)).Pairwise (· ≤ ·))
    ∧ ((invokedSeqs (runPolls someExtract (initialWorld [] [])
          ([some [reqMsg1, reqMsg2]] ++ [some [reqMsg1, reqMsg2, reqMsg3]])).2).Pairwise (· ≤ ·)
      ∧ ∀ x ∈ invokedSeqs (runPolls someExtract (initialWorld [] [])
            [some [reqMsg1, reqMsg2]]).2,
          ∀ y ∈ invokedSeqs (runPolls someExtract
              (runPolls someExtract (initialWorld [] [])
                [some [reqMsg1, reqMsg2]]).1 [some [reqMsg1, reqMsg2, reqMsg3]]).2, x < y) := by
  have hsorted : ∀ msgs, some msgs
      ∈ ([some [reqMsg1, reqMsg2]] ++ [some [reqMsg1, reqMsg2, reqMsg3]]) →
      (msgs.map (fun m => m.sequence_number)).Pairwise (· ≤ ·) := by
    intro msgs hm
    simp only [List.cons_append, List.nil_append, List.mem_cons, List.not_mem_nil,
      or_false, Option.some.injEq] at hm
    rcases hm with rfl | rfl <;> decide
  exact ⟨hsorted,
    claim9_invocation_order someExtract [] [] [some [reqMsg1, reqMsg2]]
      [some [reqMsg1, reqMsg2, reqMsg3]] hsorted⟩

/-- C2 counterexample: request 1 is fetched on two consecutive polls and its
handshake throws on the first poll.  As the claim says, the id is not added
to the processed set; but contrary to the claim the second poll does not
attempt the handshake again: the invocation happens exactly once in total,
because the watermark was advanced past the entry before the invocation. -/
theorem claim2_counterexample :
    countEvent (Event.handshakeError 1)
        (runPolls someExtract (initialWorld [false] []) [some [reqMsg1], some [reqMsg1]]).2 = 1
    ∧ 1 ∉ (runPolls someExtract (initialWorld [false] [])
        [some [reqMsg1], some [reqMsg1]]).1.st.processedRequestIds
    ∧ countEvent (Event.invokeHandshake 1)
        (runPolls someExtract (initialWorld [false] [])
          [some [reqMsg1], some [reqMsg1]]).2 = 1 := by
  decide

/-- C2 amended: when the handshake invocation throws for a request, the id is
indeed not added to the processed set; but the watermark has already been
advanced to the entry's sequence number before the invocation, so the same
still-unconfirmed entry fetched again on the next poll is filtered out and
the handshake is never retried for it: the next poll is a pure no-op. -/
theorem claim2_amended (extract : String → Option String) (hs ss : List Bool)
    (m : Message) (a : String)
    (hop : m.op = "connection_request") (hpos : 0 < m.sequence_number)
    (hex : extract m.operator_id = some a) :
    countEvent (Event.handshakeError m.sequence_number)
        (pollStep extract (initialWorld (false :: hs) ss) (some [m])).2 = 1
    ∧ m.sequence_number
        ∉ (pollStep extract (initialWorld (false :: hs) ss) (some [m])).1.st.processedRequestIds
    ∧ (pollStep extract (initialWorld (false :: hs) ss) (some [m])).1.st.lastProcessedMessage
        = m.sequence_number
    ∧ pollStep extract
        (pollStep extract (initialWorld (false :: hs) ss) (some [m])).1 (some [m])
        = ((pollStep extract (initialWorld (false :: hs) ss) (some [m])).1,
           [Event.sleep 2000]) := by
  have hbeqc : (m.op == "connection_created") = false := by rw [hop]; decide
  have hbeqr : (m.op == "connection_request") = true := by rw [hop]; decide
  have hscan : ∀ s : List Nat, confirmationScan s [m] = s := by
    intro s
    unfold confirmationScan
    simp [List.filter_cons, hbeqc]
  have hfilter1 : requestFilter 0 [m] = [m] := by
    unfold requestFilter
    simp [List.filter_cons, hbeqr, hpos]
  have hfilter2 : requestFilter m.sequence_number [m] = [] := by
    unfold requestFilter
    simp [List.filter_cons, hbeqr]
  have hpr := processRequest_fail extract ⟨⟨0, []⟩, false :: hs, ss⟩ m a hex
    (by simp) rfl
  have hbatch : processBatch extract ⟨⟨0, []⟩, false :: hs, ss⟩ [m]
      = (⟨⟨max 0 m.sequence_number, []⟩, hs, ss⟩,
         [Event.invokeHandshake m.sequence_number,
          Event.handshakeError m.sequence_number]) := by
    show ((processBatch extract (processRequest extract ⟨⟨0, []⟩, false :: hs, ss⟩ m).1 []).1,
          (processRequest extract ⟨⟨0, []⟩, false :: hs, ss⟩ m).2 ++ []) = _
    rw [hpr]
    rfl
  have hpoll1 : pollStep extract (initialWorld (false :: hs) ss) (some [m])
      = (⟨⟨m.sequence_number, []⟩, hs, ss⟩,
         [Event.invokeHandshake m.sequence_number,
          Event.handshakeError m.sequence_number, Event.sleep 2000]) := by
    have hstep : pollStep extract (initialWorld (false :: hs) ss) (some [m])
        = ((processBatch extract ⟨⟨0, confirmationScan [] [m]⟩, false :: hs, ss⟩
              (requestFilter 0 [m])).1,
           (processBatch extract ⟨⟨0, confirmationScan [] [m]⟩, false :: hs, ss⟩
              (requestFilter 0 [m])).2 ++ [Event.sleep 2000]) := rfl
    rw [hstep, hscan, hfilter1, hbatch]
    simp [Nat.zero_max]
  rw [hpoll1]
  refine ⟨?_, by simp, rfl, ?_⟩
  · simp [countEvent_cons, countEvent_nil]
  · have hstep2 : pollStep extract ⟨⟨m.sequence_number, []⟩, hs, ss⟩ (some [m])
        = ((processBatch extract
              ⟨⟨m.sequence_number, confirmationScan [] [m]⟩, hs, ss⟩
              (requestFilter m.sequence_number [m])).1,
           (processBatch extract
              ⟨⟨m.sequence_number, confirmationScan [] [m]⟩, hs, ss⟩
              (requestFilter m.sequence_number [m])).2 ++ [Event.sleep 2000]) := rfl
    rw [hstep2, hscan, hfilter2]
    rfl

/-- C2 amended witness: the amended statement evaluated on the concrete
request entry 1 whose handshake throws on the first poll. -/
theorem claim2_amended_witness :
    reqMsg1.op = "connection_request" ∧ 0 < reqMsg1.sequence_number
    ∧ someExtract reqMsg1.operator_id = some "0.0.1001"
    ∧ (countEvent (Event.handshakeError reqMsg1.sequence_number)
          (pollStep someExtract (initialWorld (false :: []) []) (some [reqMsg1])).2 = 1
      ∧ reqMsg1.sequence_number
          ∉ (pollStep someExtract
              (initialWorld (false :: []) []) (some [reqMsg1])).1.st.processedRequestIds
      ∧ (pollStep someExtract
            (initialWorld (false :: []) []) (some [reqMsg1])).1.st.lastProcessedMessage
          = reqMsg1.sequence_number
      ∧ pollStep someExtract
          (pollStep someExtract (initialWorld (false :: []) []) (some [reqMsg1])).1
          (some [reqMsg1])
          = ((pollStep someExtract (initialWorld (false :: []) []) (some [reqMsg1])).1,
             [Event.sleep 2000])) :=
  ⟨rfl, by decide, rfl,
    claim2_amended someExtract [] [] reqMsg1 "0.0.1001" rfl (by decide) rfl⟩

/-- C4 counterexample: a poll whose messages contain a connection_created
entry referencing request id 0 does not put 0 into the processed set: the
JS truthiness test on msg.connection_id is false at 0, so the claim fails
for n = 0. -/
theorem claim4_counterexample :
    confMsg0.op = "connection_created" ∧ confMsg0.connection_id = some 0
    ∧ 0 ∉ (pollStep someExtract
        (initialWorld [] []) (some [confMsg0])).1.st.processedRequestIds := by
  decide

/-- C4 amended: for every nonzero request id n, a poll whose fetched messages
contain a connection_created entry referencing n ends with n in the processed
set even if n was never invoked by this process, no handshake invocation for
n happens in that poll (the dedup scan precedes the request scan), and none
happens in any later poll either. -/
theorem claim4_amended (extract : String → Option String) (w : World)
    (msgs : List Message) (rest : List (Option (List Message))) (m : Message) (n : Nat)
    (hn : n ≠ 0) (hm : m ∈ msgs) (hop : m.op = "connection_created")
    (hc : m.connection_id = some n) :
    n ∈ (pollStep extract w (some msgs)).1.st.processedRequestIds
    ∧ countEvent (Event.invokeHandshake n) (pollStep extract w (some msgs)).2 = 0
    ∧ countEvent (Event.invokeHandshake n)
        (runPolls extract (pollStep extract w (some msgs)).1 rest).2 = 0 := by
  have hscan : n ∈ confirmationScan w.st.processedRequestIds msgs :=
    mem_confirmationScan_of_conf hn m hm hop hc
  obtain ⟨bA, -, bB, -⟩ := processBatch_inv extract n
    (requestFilter w.st.lastProcessedMessage msgs)
    { w with st := ⟨w.st.lastProcessedMessage,
        confirmationScan w.st.processedRequestIds msgs⟩ }
  have hmem : n ∈ (pollStep extract w (some msgs)).1.st.processedRequestIds := bB hscan
  refine ⟨hmem, ?_, ?_⟩
  · have hpoll : (pollStep extract w (some msgs)).2
        = (processBatch extract
            { w with st := ⟨w.st.lastProcessedMessage,
                confirmationScan w.st.processedRequestIds msgs⟩ }
            (requestFilter w.st.lastProcessedMessage msgs)).2 ++ [Event.sleep 2000] := rfl
    rw [hpoll, countEvent_append, bA hscan]
    rfl
  · obtain ⟨rA, -⟩ := runPolls_inv extract n rest (pollStep extract w (some msgs)).1
    exact rA hmem

/-- C4 amended witness: the amended statement evaluated on a concrete poll
carrying a confirmation for id 5 followed by the request entry 5, and one
later poll repeating the request. -/
theorem claim4_amended_witness :
    (5 : Nat) ≠ 0 ∧ confMsg5 ∈ [confMsg5, reqMsg5]
    ∧ confMsg5.op = "connection_created" ∧ confMsg5.connection_id = some 5
    ∧ (5 ∈ (pollStep someExtract (initialWorld [] [])
          (some [confMsg5, reqMsg5])).1.st.processedRequestIds
      ∧ countEvent (Event.invokeHandshake 5)
          (pollStep someExtract (initialWorld [] []) (some [confMsg5, reqMsg5])).2 = 0
      ∧ countEvent (Event.invokeHandshake 5)
          (runPolls someExtract
            (pollStep someExtract (initialWorld [] []) (some [confMsg5, reqMsg5])).1
            [some [reqMsg5]]).2 = 0) :=
  ⟨by decide, by decide, rfl, rfl,
    claim4_amended someExtract (initialWorld [] []) [confMsg5, reqMsg5] [some [reqMsg5]]
      confMsg5 5 (by decide) (by decide) rfl rfl⟩

/-- C6: a request entry whose operator_id fails to parse is skipped with a
warning and advances no per-entry state: the batch containing it ends with
exactly the same processed set and outcome schedules as the batch without it,
its trace is the same apart from the single warning event, and the entries
after it are processed identically (the batch is not aborted). -/
theorem claim6_malformed_skipped (extract : String → Option String) (w : World)
    (pre post : List Message) (m : Message)
    (hm : extract m.operator_id = none) :
    (processBatch extract w (pre ++ m :: post)).1.st.processedRequestIds
        = (processBatch extract w (pre ++ post)).1.st.processedRequestIds
    ∧ (processBatch extract w (pre ++ m :: post)).1.handshakeOutcomes
        = (processBatch extract w (pre ++ post)).1.handshakeOutcomes
    ∧ (processBatch extract w (pre ++ m :: post)).1.sendOutcomes
        = (processBatch extract w (pre ++ post)).1.sendOutcomes
    ∧ (processBatch extract w (pre ++ m :: post)).2
        = (processBatch extract w pre).2
          ++ Event.warnInvalidOperator m.sequence_number
            :: (processBatch extract (processBatch extract w pre).1 post).2
    ∧ (processBatch extract w (pre ++ post)).2
        = (processBatch extract w pre).2
          ++ (processBatch extract (processBatch extract w pre).1 post).2 := by
  have hpr := processRequest_none extract (processBatch extract w pre).1 m hm
  have hagn := processBatch_agnostic extract post
    (processRequest extract (processBatch extract w pre).1 m).1
    (processBatch extract w pre).1
    (by rw [hpr]) (by rw [hpr]) (by rw [hpr])
  obtain ⟨f1, f2, f3, f4⟩ := hagn
  have h1 := processBatch_append extract pre (m :: post) w
  have h2 := processBatch_append extract pre post w
  have hcons : processBatch extract (processBatch extract w pre).1 (m :: post)
      = ((processBatch extract
            (processRequest extract (processBatch extract w pre).1 m).1 post).1,
         (processRequest extract (processBatch extract w pre).1 m).2
           ++ (processBatch extract
                (processRequest extract (processBatch extract w pre).1 m).1 post).2) := rfl
  refine ⟨?_, ?_, ?_, ?_, ?_⟩
  · rw [h1, h2, hcons]
    exact f2
  · rw [h1, h2, hcons]
    exact f3
  · rw [h1, h2, hcons]
    exact f4
  · rw [h1, hcons]
    show (processBatch extract w pre).2
        ++ ((processRequest extract (processBatch extract w pre).1 m).2
          ++ (processBatch extract
                (processRequest extract (processBatch extract w pre).1 m).1 post).2) = _
    rw [f1]
    have hev : (processRequest extract (processBatch extract w pre).1 m).2
        = [Event.warnInvalidOperator m.sequence_number] := by rw [hpr]
    rw [hev]
    rfl
  · rw [h2]

/-- C6 witness: the malformed-entry statement evaluated on a concrete batch
with a well-formed entry before and after the malformed one. -/
theorem claim6_witness :
    demoExtract badMsg.operator_id = none
    ∧ ((processBatch demoExtract (initialWorld [] []) ([reqMsg1] ++ badMsg :: [reqMsg2])).1.st.processedRequestIds
          = (processBatch demoExtract (initialWorld [] []) ([reqMsg1] ++ [reqMsg2])).1.st.processedRequestIds
      ∧ (processBatch demoExtract (initialWorld [] []) ([reqMsg1] ++ badMsg :: [reqMsg2])).1.handshakeOutcomes
          = (processBatch demoExtract (initialWorld [] []) ([reqMsg1] ++ [reqMsg2])).1.handshakeOutcomes
      ∧ (processBatch demoExtract (initialWorld [] []) ([reqMsg1] ++ badMsg :: [reqMsg2])).1.sendOutcomes
          = (processBatch demoExtract (initialWorld [] []) ([reqMsg1] ++ [reqMsg2])).1.sendOutcomes
      ∧ (processBatch demoExtract (initialWorld [] []) ([reqMsg1] ++ badMsg :: [reqMsg2])).2
          = (processBatch demoExtract (initialWorld [] []) [reqMsg1]).2
            ++ Event.warnInvalidOperator badMsg.sequence_number
              :: (processBatch demoExtract
                  (processBatch demoExtract (initialWorld [] []) [reqMsg1]).1 [reqMsg2]).2
      ∧ (processBatch demoExtract (initialWorld [] []) ([reqMsg1] ++ [reqMsg2])).2
          = (processBatch demoExtract (initialWorld [] []) [reqMsg1]).2
            ++ (processBatch demoExtract
                (processBatch demoExtract (initialWorld [] []) [reqMsg1]).1 [reqMsg2]).2) :=
  ⟨rfl, claim6_malformed_skipped demoExtract (initialWorld [] []) [reqMsg1] [reqMsg2] badMsg rfl⟩

/-- C10: for maxRetries at least 1, retryWithBackoff calls fn at most
maxRetries times; if the attempts before index s all throw and attempt s
succeeds with v, it returns v after exactly s+1 calls, having slept
baseDelay * 2^i ms after failed attempt i for i = 0 .. s-1; and if all
maxRetries attempts throw, it rethrows the error of the final attempt after
exactly maxRetries calls, sleeping after every failed attempt except the
last. -/
theorem claim10_retryWithBackoff {E T : Type} (o : Nat → Except E T)
    (mr bd : Nat) (h : 1 ≤ mr) :
    (retryWithBackoff o mr bd).2.1 ≤ mr
    ∧ (∀ s v, s < mr → (∀ j, j < s → ∃ e, o j = Except.error e) →
        o s = Except.ok v →
        retryWithBackoff o mr bd
          = (RetryOutcome.ok v, s + 1, (List.range s).map (fun j => bd * 2 ^ j)))
    ∧ (∀ es : Nat → E, (∀ j, j < mr → o j = Except.error (es j)) →
        retryWithBackoff o mr bd
          = (RetryOutcome.err (es (mr - 1)), mr,
             (List.range (mr - 1)).map (fun j => bd * 2 ^ j))) := by
  refine ⟨retryGo_calls_le o mr bd mr 0, ?_, ?_⟩
  · intro s v hs hfail hok
    have hgo := retryGo_success o mr bd mr 0 s v hs (by omega)
      (fun j hj => by simpa using hfail j hj)
      (by simpa using hok)
    simpa using hgo
  · intro es hfail
    have hgo := retryGo_allfail o mr bd es hfail mr 0 (by omega) h
    simpa using hgo

/-- C10 witness: the retry contract evaluated on the concrete schedule whose
first call throws and whose second call returns 42, with maxRetries 3 and
baseDelay 10. -/
theorem claim10_witness :
    (1 : Nat) ≤ 3
    ∧ ((retryWithBackoff demoOutcomes 3 10).2.1 ≤ 3
      ∧ (∀ s v, s < 3 → (∀ j, j < s → ∃ e, demoOutcomes j = Except.error e) →
          demoOutcomes s = Except.ok v →
          retryWithBackoff demoOutcomes 3 10
            = (RetryOutcome.ok v, s + 1, (List.range s).map (fun j => 10 * 2 ^ j)))
      ∧ (∀ es : Nat → String, (∀ j, j < 3 → demoOutcomes j = Except.error (es j)) →
          retryWithBackoff demoOutcomes 3 10
            = (RetryOutcome.err (es 2), 3, (List.range 2).map (fun j => 10 * 2 ^ j)))) :=
  ⟨by decide, claim10_retryWithBackoff demoOutcomes 3 10 (by decide)⟩
